import Mathlib

/-!
Verification development for the editorjs-image-list block tool.

The definitions below are a shallow embedding of the relevant parts of
src/index.js (class ImageListTool) and src/ui.js (class Ui).  DOM nodes of
the image list are modelled by the record DomNode; node identity (the JS
reference identity used by the drag-and-drop handlers) is represented by
the nodeId field, which the embedding keeps unique.  JSON round trips
through dataset.item are modelled by storing the Item value directly.
-/

namespace ImageList

/-- File data of one item, as returned from the backend (index.js, ImageListItem). -/
structure ImageFile where
  url : String
deriving DecidableEq, Repr

/-- One list item: caption plus file data (index.js, ImageListItem). -/
structure Item where
  caption : String
  file : ImageFile
deriving DecidableEq, Repr

/-- JS `s || d` on strings: the empty string is the only falsy string. -/
def jsOrString (s d : String) : String := if s = "" then d else s

/-- Model of one image container div (class image-list-tool__image).
nodeId models DOM reference identity; dataHash and dataItem model the
dataset.hash and dataset.item attributes (none = attribute absent);
captionText is the live innerHTML of the caption element; mediaTag is the
tag name of the media element placed in the container, if any. -/
structure DomNode where
  nodeId : Nat
  dataHash : Option String
  dataItem : Option Item
  captionText : String
  mediaTag : Option String
  hasPreloader : Bool
deriving DecidableEq, Repr

/-- State of the Ui module: the children of nodes.listContainer in DOM order,
plus a counter supplying fresh node identities. -/
structure UiState where
  listChildren : List DomNode
  nextId : Nat
deriving DecidableEq, Repr

/-- The empty image container created in the Ui constructor and placed inside
the uploader container (ui.js line 26).  It carries no dataset attributes. -/
def uploaderImageContainer : DomNode :=
  { nodeId := 0
    dataHash := none
    dataItem := none
    captionText := ""
    mediaTag := none
    hasPreloader := false }

/-- Initial Ui state: the list container is empty. -/
def Ui.initState : UiState := { listChildren := [], nextId := 1 }

/-- A freshly made container div (ui.js line 118): no attributes, no content. -/
def freshNode (id : Nat) : DomNode :=
  { nodeId := id
    dataHash := none
    dataItem := none
    captionText := ""
    mediaTag := none
    hasPreloader := false }

/-- Template-literal interpolation of the hash argument: the undefined value
interpolates to the string "undefined". -/
def hashStr : Option String → String
  | none => "undefined"
  | some h => h

/-- The non-preload branch of Ui.renderItem (ui.js lines 133-172): the
container is cleared, dataset.hash is set to "-", dataset.item to the
serialized item, a caption div with innerHTML `item.caption || ''` and an
img element are appended. -/
def fillNode (n : DomNode) (item : Item) : DomNode :=
  { n with
    dataHash := some "-"
    dataItem := some item
    captionText := jsOrString item.caption ""
    mediaTag := some "img"
    hasPreloader := false }

/-- The preload branch of Ui.renderItem (ui.js lines 122-131): dataset.hash is
assigned the hash value (undefined coerces to "undefined") and a preloader div
is appended; dataset.item is never written in this branch. -/
def preloadNode (n : DomNode) (hash : Option String) : DomNode :=
  { n with
    dataHash := some (hashStr hash)
    hasPreloader := true }

/-- Replacement of the node with a given identity (in-place DOM mutation). -/
def updateNode (l : List DomNode) (id : Nat) (n : DomNode) : List DomNode :=
  l.map fun x => if x.nodeId = id then n else x

/-- Ui.renderItem (ui.js lines 103-175).  Since `typeof hash` is a string, the
guard `typeof hash !== undefined` is always true, so the wrapper is always
queried for a container with data-hash equal to the interpolated hash; if none
is found a fresh container is appended to the list container.  The container
is then either put into preload state (mode "preload") or filled. -/
def Ui.renderItem (st : UiState) (item : Item) (hash : Option String)
    (mode : Option String) : UiState :=
  let found := st.listChildren.find? fun n =>
    n.dataHash == some (hashStr hash)
  match found with
  | some n =>
    if mode = some "preload" then
      { st with listChildren := updateNode st.listChildren n.nodeId (preloadNode n hash) }
    else
      { st with listChildren := updateNode st.listChildren n.nodeId (fillNode n item) }
  | none =>
    let base := freshNode st.nextId
    let node := if mode = some "preload" then preloadNode base hash else fillNode base item
    { listChildren := st.listChildren ++ [node], nextId := st.nextId + 1 }

/-- The data setter of ImageListTool (index.js lines 278-282): each input item
is rendered in order; renderItem is called with hash and mode undefined. -/
def ImageListTool.setData (items : List Item) (st : UiState) : UiState :=
  items.foldl (fun s it => Ui.renderItem s it none none) st

/-- Document order of the image containers found by
document.querySelectorAll: the list container children come first (the
wrapper appends the list container before the uploader container), then the
empty container sitting in the uploader container. -/
def documentContainers (st : UiState) : List DomNode :=
  st.listChildren ++ [uploaderImageContainer]

/-- Caption overwrite performed by save: the parsed item with its caption
field replaced by the live caption text of the node. -/
def liveItem (n : DomNode) (it : Item) : Item := { it with caption := n.captionText }

/-- The loop of ImageListTool.save (index.js lines 209-217): walk the
containers in document order, keep exactly those whose dataset.item is a
non-empty payload, parse it and overwrite its caption with the live text. -/
def ImageListTool.save : List DomNode → List Item
  | [] => []
  | c :: rest =>
    match c.dataItem with
    | some it => liveItem c it :: ImageListTool.save rest
    | none => ImageListTool.save rest

/-- ImageListTool.save applied to the whole document (index.js line 207). -/
def ImageListTool.saveState (st : UiState) : List Item :=
  ImageListTool.save (documentContainers st)

/-- Effect of the remove-button click handler (ui.js lines 148-151):
imageContainer.remove() detaches that container from the list. -/
def removeClick (st : UiState) (id : Nat) : UiState :=
  { st with listChildren := st.listChildren.filter fun n => n.nodeId != id }

/-- A JS value as far as validate is concerned: the result of the expression
`savedData.items && savedData.items.length > 0` is either the undefined value
(when items is missing) or a boolean. -/
inductive JSValue where
  | undef
  | bool (b : Bool)
deriving DecidableEq, Repr

/-- JS truthiness of such a value. -/
def JSValue.truthy : JSValue → Bool
  | JSValue.undef => false
  | JSValue.bool b => b

/-- Saved data as seen by validate: items may be a present array or missing. -/
structure ToolData where
  items : Option (List Item)
deriving DecidableEq, Repr

/-- ImageListTool.validate (index.js lines 191-193):
`return savedData.items && savedData.items.length > 0`.  A missing items
field is falsy, so the AND returns it (the undefined value); a present array
is truthy (even when empty), so the AND returns the boolean length test. -/
def ImageListTool.validate (d : ToolData) : JSValue :=
  match d.items with
  | none => JSValue.undef
  | some l => JSValue.bool (decide (0 < l.length))

/-- File object of an upload response; the url field may be absent or empty. -/
structure RespFile where
  url : Option String
deriving DecidableEq, Repr

/-- Upload response (index.js, UploadResponseFormat): success is 1 for a
successful upload and 0 for failure; file may be absent on malformed input. -/
structure UploadResponse where
  success : Nat
  file : Option RespFile
deriving DecidableEq, Repr

/-- State of the whole tool: the backing items array (this._data.items), the
Ui state, and the number of notifier.show calls observed. -/
structure ToolState where
  items : List Item
  ui : UiState
  notifications : Nat
deriving DecidableEq, Repr

/-- Ui.hidePreloader (ui.js lines 219-220): the body of the method is empty,
so the Ui state is returned unchanged. -/
def Ui.hidePreloader (st : UiState) : UiState := st

/-- ImageListTool.uploadingFailed (index.js lines 346-352): one notification
is raised and hidePreloader is invoked. -/
def ImageListTool.uploadingFailed (st : ToolState) : ToolState :=
  { st with
    notifications := st.notifications + 1
    ui := Ui.hidePreloader st.ui }

/-- The image setter of ImageListTool (index.js lines 302-313): only when the
file object is present and its url is truthy, a new item with empty caption is
pushed onto the data array and rendered. -/
def ImageListTool.setImage (st : ToolState) (file : Option RespFile) : ToolState :=
  match file with
  | none => st
  | some f =>
    match f.url with
    | none => st
    | some u =>
      if u = "" then st
      else
        let item : Item := { caption := "", file := { url := u } }
        { st with
          items := st.items ++ [item]
          ui := Ui.renderItem st.ui item none none }

/-- ImageListTool.onUpload (index.js lines 331-337): when both the success
flag and the file object are truthy the image setter runs, otherwise
uploadingFailed runs. -/
def ImageListTool.onUpload (st : ToolState) (r : UploadResponse) : ToolState :=
  if r.success ≠ 0 ∧ r.file.isSome then
    ImageListTool.setImage st r.file
  else
    ImageListTool.uploadingFailed st

/-! The sortable list controller (Ui.initSorting, ui.js lines 248-321).
The handlers operate on DOM nodes through reference identity; they do not
inspect the data model, so they are stated over an arbitrary type with
decidable equality.  The tracked node list (the `items` variable of
initSorting) is re-queried after every drop, so it coincides with the DOM
sibling order. -/

/-- The index scan of the ondrop handler (ui.js lines 301-309): the JS loop
runs over the whole list and keeps the LAST index at which the node occurs,
defaulting to 0 when the node does not occur. -/
def lastPosAux {α : Type} [DecidableEq α] : List α → α → Nat → Nat → Nat
  | [], _, _, acc => acc
  | a :: rest, x, idx, acc => lastPosAux rest x (idx + 1) (if a = x then idx else acc)

/-- Position of a node in the tracked list, as the ondrop handler computes it. -/
def lastPos {α : Type} [DecidableEq α] (l : List α) (x : α) : Nat :=
  lastPosAux l x 0 0

/-- The nextSibling of a node within a sibling list (none when the node is
last or absent). -/
def nextSibling {α : Type} [DecidableEq α] : List α → α → Option α
  | [], _ => none
  | [_], _ => none
  | a :: b :: rest, x => if a = x then some b else nextSibling (b :: rest) x

/-- Removal of the first occurrence of a node from a sibling list (the
detach step of DOM insertBefore on a node that is already in the tree). -/
def removeFirst {α : Type} [DecidableEq α] : List α → α → List α
  | [], _ => []
  | a :: rest, x => if a = x then rest else a :: removeFirst rest x

/-- Insertion of a node immediately before the first occurrence of a
reference node. -/
def insertBeforeElem {α : Type} [DecidableEq α] : List α → α → α → List α
  | [], _, x => [x]
  | a :: rest, r, x => if a = r then x :: a :: rest else a :: insertBeforeElem rest r x

/-- Insertion of a node immediately after the first occurrence of a
reference node. -/
def insertAfterElem {α : Type} [DecidableEq α] : List α → α → α → List α
  | [], _, x => [x]
  | a :: rest, r, x => if a = r then a :: x :: rest else a :: insertAfterElem rest r x

/-- DOM parentNode.insertBefore(newNode, ref) on a sibling list: the new node
is first detached from the list, then inserted before ref; a null ref appends
at the end. -/
def insertBeforeRef {α : Type} [DecidableEq α] (l : List α) (newNode : α)
    (ref : Option α) : List α :=
  match ref with
  | none => removeFirst l newNode ++ [newNode]
  | some r => insertBeforeElem (removeFirst l newNode) r newNode

/-- The ondrop handler of Ui.initSorting (ui.js lines 298-319): nothing
happens when the drop target is the dragged node; otherwise both positions
are scanned and the dragged node is moved with insertBefore, using the
target's nextSibling as reference when the dragged node was earlier in the
list and the target itself otherwise. -/
def ondrop {α : Type} [DecidableEq α] (items : List α) (current target : α) : List α :=
  if target = current then items
  else
    let currentPos := lastPos items current
    let droppedPos := lastPos items target
    if currentPos < droppedPos then
      insertBeforeRef items current (nextSibling items target)
    else
      insertBeforeRef items current (some target)

/-- Index of the first occurrence of a node (the spec's notion of the index
of a node in the tracked list). -/
def indexOfFirst {α : Type} [DecidableEq α] : List α → α → Nat
  | [], _ => 0
  | a :: rest, x => if a = x then 0 else indexOfFirst rest x + 1

/-- Modelled from the spec words (section 4.3): on drop over a non-current
node, compare the two indices; when the dragged node's index is smaller,
reinsert it immediately after the target, otherwise immediately before the
target. -/
def specDrop {α : Type} [DecidableEq α] (items : List α) (current target : α) : List α :=
  if target = current then items
  else if indexOfFirst items current < indexOfFirst items target then
    insertAfterElem (removeFirst items current) target current
  else
    insertBeforeElem (removeFirst items current) target current

/-- One drop step of a drag-and-drop sequence. -/
def dropStep {α : Type} [DecidableEq α] (s : List α) (p : α × α) : List α :=
  ondrop s p.1 p.2

/-- The list order after a sequence of drops, as the code computes it. -/
def runDrops {α : Type} [DecidableEq α] (l : List α) (ops : List (α × α)) : List α :=
  ops.foldl dropStep l

/-- The list order after a sequence of drops, by the spec's before/after rule. -/
def runSpecDrops {α : Type} [DecidableEq α] (l : List α) (ops : List (α × α)) : List α :=
  ops.foldl (fun s p => specDrop s p.1 p.2) l

/-- A drop sequence is admissible when every drop drags one tracked node onto
a different tracked node of the list as it stands at that step. -/
def ValidOps {α : Type} [DecidableEq α] : List α → List (α × α) → Prop
  | _, [] => True
  | s, p :: rest => p.1 ∈ s ∧ p.2 ∈ s ∧ p.1 ≠ p.2 ∧ ValidOps (ondrop s p.1 p.2) rest

instance instDecidableValidOps {α : Type} [DecidableEq α] :
    (s : List α) → (ops : List (α × α)) → Decidable (ValidOps s ops)
  | _, [] => isTrue trivial
  | s, p :: rest =>
    haveI := instDecidableValidOps (ondrop s p.1 p.2) rest
    inferInstanceAs (Decidable (p.1 ∈ s ∧ p.2 ∈ s ∧ p.1 ≠ p.2 ∧
      ValidOps (ondrop s p.1 p.2) rest))


/-- The list of containers appended by loading a list of items, starting from
a given fresh identity counter. -/
def buildNodes : Nat → List Item → List DomNode
  | _, [] => []
  | k, it :: rest => fillNode (freshNode k) it :: buildNodes (k + 1) rest

/-- Concrete demonstration items and containers used by witnesses. -/
def demoItemA : Item := { caption := "a", file := { url := "ua" } }

def demoItemB : Item := { caption := "b", file := { url := "ub" } }

def demoNodeA : DomNode := fillNode (freshNode 2) demoItemA

def demoNodeB : DomNode := fillNode (freshNode 1) demoItemB

end ImageList

namespace ImageList

variable {α : Type} [DecidableEq α]

theorem perm_insertBeforeElem (l : List α) (r x : α) :
    (insertBeforeElem l r x).Perm (x :: l) := by
  induction l with
  | nil => simp [insertBeforeElem]
  | cons a rest ih =>
    by_cases h : a = r
    · simp [insertBeforeElem, h]
    · simp only [insertBeforeElem, if_neg h]
      exact (ih.cons a).trans (List.Perm.swap x a rest)

theorem perm_insertAfterElem (l : List α) (r x : α) :
    (insertAfterElem l r x).Perm (x :: l) := by
  induction l with
  | nil => simp [insertAfterElem]
  | cons a rest ih =>
    by_cases h : a = r
    · simp only [insertAfterElem, if_pos h]
      exact List.Perm.swap x a rest
    · simp only [insertAfterElem, if_neg h]
      exact (ih.cons a).trans (List.Perm.swap x a rest)

theorem removeFirst_of_not_mem {l : List α} {x : α} (h : x ∉ l) :
    removeFirst l x = l := by
  induction l with
  | nil => rfl
  | cons a rest ih =>
    have hax : a ≠ x := by
      intro he; exact h (he ▸ List.mem_cons_self a rest)
    have hx : x ∉ rest := fun hm => h (List.mem_cons_of_mem a hm)
    simp [removeFirst, hax, ih hx]

theorem perm_removeFirst {l : List α} {x : α} (h : x ∈ l) :
    (x :: removeFirst l x).Perm l := by
  induction l with
  | nil => cases h
  | cons a rest ih =>
    by_cases hax : a = x
    · subst hax; simp [removeFirst]
    · have hx : x ∈ rest := by
        cases List.mem_cons.mp h with
        | inl he => exact absurd he.symm hax
        | inr hm => exact hm
      simp only [removeFirst, if_neg hax]
      exact (List.Perm.swap a x (removeFirst rest x)).trans ((ih hx).cons a)

theorem nextSibling_mem {l : List α} {t s : α} (h : nextSibling l t = some s) :
    s ∈ l := by
  induction l with
  | nil => simp [nextSibling] at h
  | cons a rest ih =>
    match rest, h with
    | [], h => simp [nextSibling] at h
    | b :: r, h =>
      by_cases hat : a = t
      · simp only [nextSibling, if_pos hat] at h
        have hsb : s = b := (Option.some.inj h).symm
        subst hsb
        simp
      · simp only [nextSibling, if_neg hat] at h
        exact List.mem_cons_of_mem a (ih h)

theorem nextSibling_cons_ne {m : List α} {t : α} (a : α) (ht : t ∈ m) (hat : a ≠ t) :
    nextSibling (a :: m) t = nextSibling m t := by
  match m, ht with
  | b :: r, _ => simp only [nextSibling, if_neg hat]

theorem lastPosAux_of_not_mem {l : List α} {x : α} (h : x ∉ l) :
    ∀ idx acc, lastPosAux l x idx acc = acc := by
  induction l with
  | nil => intro idx acc; rfl
  | cons a rest ih =>
    intro idx acc
    have hax : a ≠ x := fun he => h (he ▸ List.mem_cons_self a rest)
    have hx : x ∉ rest := fun hm => h (List.mem_cons_of_mem a hm)
    simp [lastPosAux, hax, ih hx]

theorem lastPosAux_nodup {l : List α} {x : α} (hnd : l.Nodup) (hx : x ∈ l) :
    ∀ idx acc, lastPosAux l x idx acc = idx + indexOfFirst l x := by
  induction l with
  | nil => cases hx
  | cons a rest ih =>
    intro idx acc
    by_cases hax : a = x
    · subst hax
      have hnr : a ∉ rest := (List.nodup_cons.mp hnd).1
      simp [lastPosAux, indexOfFirst, lastPosAux_of_not_mem hnr]
    · have hxr : x ∈ rest := by
        cases List.mem_cons.mp hx with
        | inl he => exact absurd he.symm hax
        | inr hm => exact hm
      have hndr : rest.Nodup := (List.nodup_cons.mp hnd).2
      simp only [lastPosAux, if_neg hax, indexOfFirst]
      rw [ih hndr hxr]
      omega

theorem lastPos_eq_indexOfFirst {l : List α} {x : α} (hnd : l.Nodup) (hx : x ∈ l) :
    lastPos l x = indexOfFirst l x := by
  simp [lastPos, lastPosAux_nodup hnd hx]

end ImageList

namespace ImageList

theorem insertBeforeRef_cons {α : Type} [DecidableEq α] {m : List α} {x : α}
    {ref : Option α} (a : α) (hax : a ≠ x) (href : ∀ s, ref = some s → a ≠ s) :
    insertBeforeRef (a :: m) x ref = a :: insertBeforeRef m x ref := by
  cases ref with
  | none => simp [insertBeforeRef, removeFirst, hax]
  | some r =>
    have har : a ≠ r := href r rfl
    simp [insertBeforeRef, removeFirst, insertBeforeElem, hax, har]

theorem insertBeforeRef_nextSibling {α : Type} [DecidableEq α] {m : List α} {t c : α}
    (hnd : m.Nodup) (ht : t ∈ m) (hc : c ∉ m) :
    insertBeforeRef m c (nextSibling m t) = insertAfterElem m t c := by
  induction m with
  | nil => cases ht
  | cons b m' ih =>
    have hbc : b ≠ c := fun he => hc (he ▸ List.mem_cons_self b m')
    have hcm' : c ∉ m' := fun hm => hc (List.mem_cons_of_mem b hm)
    have hbm' : b ∉ m' := (List.nodup_cons.mp hnd).1
    have hnd' : m'.Nodup := (List.nodup_cons.mp hnd).2
    by_cases hbt : b = t
    · subst hbt
      match m' with
      | [] =>
        simp [nextSibling, insertBeforeRef, removeFirst, insertAfterElem, hbc]
      | s :: m'' =>
        have hts : b ≠ s := fun he => hbm' (he ▸ List.mem_cons_self s m'')
        simp [nextSibling, insertBeforeRef, removeFirst_of_not_mem hc,
          insertBeforeElem, insertAfterElem, hts]
    · have htm' : t ∈ m' := by
        cases List.mem_cons.mp ht with
        | inl he => exact absurd he.symm hbt
        | inr hm => exact hm
      rw [nextSibling_cons_ne b htm' hbt]
      rw [insertBeforeRef_cons b hbc (fun s hs he => hbm' (he ▸ nextSibling_mem hs))]
      rw [ih hnd' htm' hcm']
      simp [insertAfterElem, hbt]

theorem ondrop_lt {α : Type} [DecidableEq α] {l : List α} {c t : α}
    (hnd : l.Nodup) (hc : c ∈ l) (ht : t ∈ l)
    (hlt : indexOfFirst l c < indexOfFirst l t) :
    insertBeforeRef l c (nextSibling l t) = insertAfterElem (removeFirst l c) t c := by
  induction l with
  | nil => cases hc
  | cons a rest ih =>
    have har : rest.Nodup := (List.nodup_cons.mp hnd).2
    have hanr : a ∉ rest := (List.nodup_cons.mp hnd).1
    by_cases hac : a = c
    · subst hac
      have hat : a ≠ t := by
        intro he
        rw [← he] at hlt
        simp [indexOfFirst] at hlt
      have htr : t ∈ rest := by
        cases List.mem_cons.mp ht with
        | inl he => exact absurd he.symm hat
        | inr hm => exact hm
      rw [nextSibling_cons_ne a htr hat]
      have h1 : insertBeforeRef (a :: rest) a (nextSibling rest t)
          = insertBeforeRef rest a (nextSibling rest t) := by
        cases nextSibling rest t with
        | none => simp [insertBeforeRef, removeFirst, removeFirst_of_not_mem hanr]
        | some s => simp [insertBeforeRef, removeFirst, removeFirst_of_not_mem hanr]
      rw [h1, insertBeforeRef_nextSibling har htr hanr]
      simp [removeFirst]
    · have hat : a ≠ t := by
        intro he
        rw [← he] at hlt
        simp only [indexOfFirst, if_neg hac, eq_self_iff_true, if_true] at hlt
        omega
      have hcr : c ∈ rest := by
        cases List.mem_cons.mp hc with
        | inl he => exact absurd he.symm hac
        | inr hm => exact hm
      have htr : t ∈ rest := by
        cases List.mem_cons.mp ht with
        | inl he => exact absurd he.symm hat
        | inr hm => exact hm
      have hlt' : indexOfFirst rest c < indexOfFirst rest t := by
        simp only [indexOfFirst, if_neg hac, if_neg hat] at hlt
        omega
      rw [nextSibling_cons_ne a htr hat]
      rw [insertBeforeRef_cons a hac (fun s hs he => hanr (he ▸ nextSibling_mem hs))]
      rw [ih har hcr htr hlt']
      simp [removeFirst, hac, insertAfterElem, hat]

theorem ondrop_eq_specDrop {α : Type} [DecidableEq α] {l : List α} {c t : α}
    (hnd : l.Nodup) (hc : c ∈ l) (ht : t ∈ l) (hct : c ≠ t) :
    ondrop l c t = specDrop l c t := by
  unfold ondrop specDrop
  have htc : ¬(t = c) := fun he => hct he.symm
  rw [if_neg htc, if_neg htc]
  rw [lastPos_eq_indexOfFirst hnd hc, lastPos_eq_indexOfFirst hnd ht]
  by_cases hlt : indexOfFirst l c < indexOfFirst l t
  · rw [if_pos hlt, if_pos hlt, ondrop_lt hnd hc ht hlt]
  · rw [if_neg hlt, if_neg hlt]
    rfl

theorem perm_insertBeforeRef {α : Type} [DecidableEq α] (l : List α) (x : α)
    (ref : Option α) :
    (insertBeforeRef l x ref).Perm (x :: removeFirst l x) := by
  cases ref with
  | none =>
    show (removeFirst l x ++ [x]).Perm (x :: removeFirst l x)
    exact List.perm_append_singleton x (removeFirst l x)
  | some r => exact perm_insertBeforeElem (removeFirst l x) r x

theorem perm_ondrop {α : Type} [DecidableEq α] {l : List α} {c : α} (t : α)
    (hc : c ∈ l) : (ondrop l c t).Perm l := by
  unfold ondrop
  by_cases htc : t = c
  · rw [if_pos htc]
  · rw [if_neg htc]
    by_cases hlt : lastPos l c < lastPos l t
    · rw [if_pos hlt]
      exact (perm_insertBeforeRef l c (nextSibling l t)).trans (perm_removeFirst hc)
    · rw [if_neg hlt]
      exact (perm_insertBeforeRef l c (some t)).trans (perm_removeFirst hc)

end ImageList

namespace ImageList

/-- C1: on a drop over a tracked node other than the dragged node, the
handler computes both indices in the tracked list and relocates the dragged
node after the target when its index is smaller and before the target
otherwise; for every admissible sequence of such drops on a duplicate-free
node list, the resulting DOM order equals the order obtained by applying the
before/after rule step by step, and the result is a permutation of the
original list (no node lost or duplicated). -/
theorem claim_c1 {α : Type} [DecidableEq α] (l : List α) (ops : List (α × α))
    (hnd : l.Nodup) (hv : ValidOps l ops) :
    runDrops l ops = runSpecDrops l ops ∧ (runDrops l ops).Perm l := by
  induction ops generalizing l with
  | nil => exact ⟨rfl, List.Perm.refl l⟩
  | cons p rest ih =>
    obtain ⟨hc, ht, hne, hv2⟩ := hv
    have hstep : ondrop l p.1 p.2 = specDrop l p.1 p.2 :=
      ondrop_eq_specDrop hnd hc ht hne
    have hperm : (ondrop l p.1 p.2).Perm l := perm_ondrop p.2 hc
    have hnd2 : (ondrop l p.1 p.2).Nodup := hperm.symm.nodup hnd
    obtain ⟨he, hp⟩ := ih (ondrop l p.1 p.2) hnd2 hv2
    refine ⟨?_, hp.trans hperm⟩
    show runDrops (ondrop l p.1 p.2) rest = runSpecDrops (specDrop l p.1 p.2) rest
    rw [← hstep]
    exact he

/-- Witness for C1 on the concrete list [1, 2, 3] with the drop sequence
drag 1 onto 3, then drag 2 onto 1. -/
theorem claim_c1_witness :
    runDrops [1, 2, 3] [(1, 3), (2, 1)] = runSpecDrops [1, 2, 3] [(1, 3), (2, 1)]
    ∧ (runDrops [1, 2, 3] [(1, 3), (2, 1)]).Perm [1, 2, 3] :=
  claim_c1 [1, 2, 3] [(1, 3), (2, 1)] (by decide) (by decide)

end ImageList

namespace ImageList

theorem save_append (a b : List DomNode) :
    ImageListTool.save (a ++ b) = ImageListTool.save a ++ ImageListTool.save b := by
  induction a with
  | nil => rfl
  | cons c rest ih =>
    cases hc : c.dataItem with
    | none => simp [ImageListTool.save, hc, ih]
    | some it => simp [ImageListTool.save, hc, ih]

theorem save_eq_filterMap (l : List DomNode) :
    ImageListTool.save l = l.filterMap fun n => (n.dataItem).map (liveItem n) := by
  induction l with
  | nil => rfl
  | cons c rest ih =>
    cases hc : c.dataItem with
    | none => simp [ImageListTool.save, hc, ih]
    | some it => simp [ImageListTool.save, hc, ih]

/-- C2: save scans the image containers in current DOM order; the output is
exactly the in-order list, over the list container children at the moment of
save, of the stored payloads with their caption field overwritten by the live
caption text (the payload-free container in the uploader contributes
nothing), so the output order always equals the visible DOM order. -/
theorem claim_c2 (st : UiState) :
    ImageListTool.saveState st
      = st.listChildren.filterMap (fun n => (n.dataItem).map (liveItem n)) := by
  unfold ImageListTool.saveState documentContainers
  rw [save_append, save_eq_filterMap]
  simp [ImageListTool.save, uploaderImageContainer]

theorem jsOrString_empty (s : String) : jsOrString s "" = s := by
  unfold jsOrString
  by_cases h : s = ""
  · rw [if_pos h, h]
  · rw [if_neg h]

theorem renderItem_fresh (st : UiState) (item : Item) (hash : Option String)
    (mode : Option String) (h : ∀ n ∈ st.listChildren, n.dataHash ≠ some (hashStr hash)) :
    Ui.renderItem st item hash mode
      = ⟨st.listChildren ++ [if mode = some "preload"
            then preloadNode (freshNode st.nextId) hash
            else fillNode (freshNode st.nextId) item],
         st.nextId + 1⟩ := by
  unfold Ui.renderItem
  have hfind : (st.listChildren.find? fun n => n.dataHash == some (hashStr hash)) = none := by
    rw [List.find?_eq_none]
    intro x hx
    simpa using h x hx
  rw [hfind]

theorem setData_eq (items : List Item) (st : UiState)
    (h : ∀ n ∈ st.listChildren, n.dataHash ≠ some "undefined") :
    ImageListTool.setData items st
      = ⟨st.listChildren ++ buildNodes st.nextId items, st.nextId + items.length⟩ := by
  induction items generalizing st with
  | nil =>
    cases st with
    | mk lc k => simp [ImageListTool.setData, buildNodes]
  | cons it rest ih =>
    have hstep : Ui.renderItem st it none none
        = ⟨st.listChildren ++ [fillNode (freshNode st.nextId) it], st.nextId + 1⟩ := by
      rw [renderItem_fresh st it none none h]
      simp [hashStr]
    have hset : ImageListTool.setData (it :: rest) st
        = ImageListTool.setData rest (Ui.renderItem st it none none) := rfl
    rw [hset, hstep, ih]
    · simp [buildNodes, List.append_assoc]
      omega
    · intro n hn
      cases List.mem_append.mp hn with
      | inl hl => exact h n hl
      | inr hr =>
        simp only [List.mem_singleton] at hr
        subst hr
        simp [fillNode]
  -- end

theorem save_buildNodes (k : Nat) (items : List Item) :
    ImageListTool.save (buildNodes k items) = items := by
  induction items generalizing k with
  | nil => rfl
  | cons it rest ih =>
    simp [buildNodes, ImageListTool.save, fillNode, freshNode, liveItem, ih,
      jsOrString_empty]

/-- C3: loading a non-empty items list and calling save with no reorder, no
caption edit and no removal in between returns the items in the same order
as the input list. -/
theorem claim_c3 (items : List Item) (h : items ≠ []) :
    ImageListTool.saveState (ImageListTool.setData items Ui.initState) = items := by
  rw [setData_eq items Ui.initState (by intro n hn; cases hn)]
  unfold ImageListTool.saveState documentContainers
  simp only [Ui.initState, List.nil_append]
  rw [save_append, save_buildNodes]
  simp [ImageListTool.save, uploaderImageContainer]

/-- Witness for C3 on a concrete one-item list. -/
theorem claim_c3_witness :
    ImageListTool.saveState (ImageListTool.setData
      [{ caption := "a", file := { url := "u" } }] Ui.initState)
      = [{ caption := "a", file := { url := "u" } }] :=
  claim_c3 [{ caption := "a", file := { url := "u" } }] (by decide)

/-- C5: a container still in preloading state carries no stored item payload,
and save excludes every payload-free container from its output: removing such
a node from the scanned list does not change the saved items. -/
theorem claim_c5 (l1 l2 : List DomNode) (n : DomNode) (h : n.dataItem = none) :
    ImageListTool.save (l1 ++ n :: l2) = ImageListTool.save (l1 ++ l2) := by
  rw [save_append, save_append]
  simp [ImageListTool.save, h]

/-- Witness for C5 on a concrete container produced by the preload branch of
renderItem, which never writes dataset.item. -/
theorem claim_c5_witness :
    (preloadNode (freshNode 5) (some "h1")).dataItem = none
    ∧ ImageListTool.save ([] ++ preloadNode (freshNode 5) (some "h1") :: [])
      = ImageListTool.save ([] ++ []) :=
  ⟨rfl, claim_c5 [] [] (preloadNode (freshNode 5) (some "h1")) rfl⟩

/-- C7: removing an item through its remove button detaches exactly that
container, and a subsequent save yields the previous output with exactly that
item removed, the relative order of the remaining items unchanged. -/
theorem claim_c7 (k : Nat) (l1 l2 : List DomNode) (n : DomNode) (it : Item)
    (hid : ∀ m, m ∈ l1 ++ l2 → m.nodeId ≠ n.nodeId) (hit : n.dataItem = some it) :
    ImageListTool.saveState ⟨l1 ++ n :: l2, k⟩
      = ImageListTool.save l1
        ++ liveItem n it :: ImageListTool.save (l2 ++ [uploaderImageContainer])
    ∧ ImageListTool.saveState (removeClick ⟨l1 ++ n :: l2, k⟩ n.nodeId)
      = ImageListTool.save l1 ++ ImageListTool.save (l2 ++ [uploaderImageContainer]) := by
  have hfilter : (l1 ++ n :: l2).filter (fun m => m.nodeId != n.nodeId) = l1 ++ l2 := by
    rw [List.filter_append]
    have h1 : l1.filter (fun m => m.nodeId != n.nodeId) = l1 := by
      rw [List.filter_eq_self]
      intro a ha
      simpa using hid a (List.mem_append.mpr (Or.inl ha))
    have h2 : (n :: l2).filter (fun m => m.nodeId != n.nodeId) = l2 := by
      have h3 : l2.filter (fun m => m.nodeId != n.nodeId) = l2 := by
        rw [List.filter_eq_self]
        intro a ha
        simpa using hid a (List.mem_append.mpr (Or.inr ha))
      simp [List.filter_cons, h3]
    rw [h1, h2]
  constructor
  · unfold ImageListTool.saveState documentContainers
    simp only [List.append_assoc, List.cons_append]
    rw [save_append]
    simp [ImageListTool.save, hit]
  · unfold ImageListTool.saveState documentContainers removeClick
    simp only [hfilter, List.append_assoc]
    rw [save_append]

/-- Witness for C7 on a concrete two-item list: removing the second item
keeps the first. -/
theorem claim_c7_witness :
    ImageListTool.saveState (removeClick ⟨[demoNodeB] ++ demoNodeA :: [], 3⟩ demoNodeA.nodeId)
      = ImageListTool.save [demoNodeB]
        ++ ImageListTool.save ([] ++ [uploaderImageContainer]) :=
  (claim_c7 3 [demoNodeB] [] demoNodeA demoItemA (by decide) rfl).2

end ImageList

namespace ImageList

/-- C4: loading the three-item list [A, B, C] and performing one drag of the
first container (item A) dropped on the third container (item C) moves A
after C, and save then returns [B, C, A]. -/
theorem claim_c4 (A B C : Item) :
    ImageListTool.saveState
      { ImageListTool.setData [A, B, C] Ui.initState with
        listChildren :=
          ondrop (ImageListTool.setData [A, B, C] Ui.initState).listChildren
            ((ImageListTool.setData [A, B, C] Ui.initState).listChildren.getD 0
              uploaderImageContainer)
            ((ImageListTool.setData [A, B, C] Ui.initState).listChildren.getD 2
              uploaderImageContainer) }
      = [B, C, A] := by
  have hset : ImageListTool.setData [A, B, C] Ui.initState
      = ⟨[fillNode (freshNode 1) A, fillNode (freshNode 2) B,
          fillNode (freshNode 3) C], 4⟩ := by
    rw [setData_eq [A, B, C] Ui.initState (by intro n hn; cases hn)]
    simp [Ui.initState, buildNodes]
  rw [hset]
  simp only [List.getD, List.get?, Option.getD]
  simp [ondrop, lastPos, lastPosAux, nextSibling, insertBeforeRef, removeFirst,
    insertBeforeElem, fillNode, freshNode, ImageListTool.saveState,
    documentContainers, ImageListTool.save, liveItem, uploaderImageContainer,
    jsOrString_empty]

/-- C8 counterexample: an item whose file URL ends in the video extension
.mp4 is still rendered with an img media element, not a video element. -/
theorem claim_c8_counterexample :
    "movie.mp4" = "movie" ++ ".mp4"
    ∧ ((Ui.renderItem Ui.initState { caption := "", file := { url := "movie.mp4" } }
        none none).listChildren.map fun n => n.mediaTag) = [some "img"]
    ∧ some "img" ≠ some "video" := by
  refine ⟨by decide, by decide, by decide⟩

/-- C8 amended: the media element of every freshly rendered (non-preload)
container is an image element for every file URL, including URLs with video
extensions; no video element is ever created. -/
theorem claim_c8_amended (st : UiState) (item : Item) (hash : Option String)
    (h : ∀ n ∈ st.listChildren, n.dataHash ≠ some (hashStr hash)) :
    ((Ui.renderItem st item hash none).listChildren.map fun n => n.mediaTag)
      = (st.listChildren.map fun n => n.mediaTag) ++ [some "img"] := by
  rw [renderItem_fresh st item hash none h]
  simp [fillNode]

/-- Witness for C8 amended at a concrete mp4 URL. -/
theorem claim_c8_witness :
    ((Ui.renderItem Ui.initState { caption := "", file := { url := "clip.mp4" } }
        none none).listChildren.map fun n => n.mediaTag)
      = (Ui.initState.listChildren.map fun n => n.mediaTag) ++ [some "img"] :=
  claim_c8_amended Ui.initState { caption := "", file := { url := "clip.mp4" } } none
    (by simp [Ui.initState])

end ImageList

namespace ImageList

/-- C6 (code bug evaluation): on an upload response with success 0, no item
is appended to the data array and exactly one notification is raised, but the
Ui state is returned unchanged: Ui.hidePreloader has an empty body, so a
displayed preloader is not cleared. -/
theorem claim_c6 (st : ToolState) (r : UploadResponse) (h : r.success = 0) :
    (ImageListTool.onUpload st r).items = st.items
    ∧ (ImageListTool.onUpload st r).notifications = st.notifications + 1
    ∧ (ImageListTool.onUpload st r).ui = st.ui := by
  have hcond : ¬(r.success ≠ 0 ∧ r.file.isSome) := fun hc => hc.1 h
  unfold ImageListTool.onUpload
  rw [if_neg hcond]
  unfold ImageListTool.uploadingFailed Ui.hidePreloader
  exact ⟨rfl, rfl, rfl⟩

/-- Witness for C6 at a failing response received while a preloader-bearing
container is displayed: the container is still there afterwards. -/
theorem claim_c6_witness :
    (ImageListTool.onUpload
        ⟨[], ⟨[preloadNode (freshNode 1) (some "h")], 2⟩, 0⟩
        { success := 0, file := none }).items = []
    ∧ (ImageListTool.onUpload
        ⟨[], ⟨[preloadNode (freshNode 1) (some "h")], 2⟩, 0⟩
        { success := 0, file := none }).notifications = 0 + 1
    ∧ (ImageListTool.onUpload
        ⟨[], ⟨[preloadNode (freshNode 1) (some "h")], 2⟩, 0⟩
        { success := 0, file := none }).ui
      = ⟨[preloadNode (freshNode 1) (some "h")], 2⟩ :=
  claim_c6 ⟨[], ⟨[preloadNode (freshNode 1) (some "h")], 2⟩, 0⟩
    { success := 0, file := none } rfl

/-- C9 counterexample: when the items field is missing, validate returns the
undefined value, which is falsy but is not the boolean false the claim
promises. -/
theorem claim_c9_counterexample :
    ImageListTool.validate { items := none } = JSValue.undef
    ∧ ImageListTool.validate { items := none } ≠ JSValue.bool false :=
  ⟨rfl, by decide⟩

/-- C9 amended: validate returns a truthy value exactly when the items field
is present with length greater than zero; in every other case the returned
value is falsy (the boolean false for a present empty array, the undefined
value when items is missing). -/
theorem claim_c9_amended (d : ToolData) :
    (ImageListTool.validate d).truthy = true
      ↔ ∃ l, d.items = some l ∧ 0 < l.length := by
  cases hd : d.items with
  | none => simp [ImageListTool.validate, hd, JSValue.truthy]
  | some l => simp [ImageListTool.validate, hd, JSValue.truthy]

/-- C10: a response with a truthy success flag and a present file object
whose url is missing or empty is dropped silently: the tool state is entirely
unchanged, so no item is appended, nothing is rendered and no notification is
raised. -/
theorem claim_c10 (st : ToolState) (r : UploadResponse) (f : RespFile)
    (hs : r.success ≠ 0) (hf : r.file = some f)
    (hu : f.url = none ∨ f.url = some "") :
    ImageListTool.onUpload st r = st := by
  have hcond : r.success ≠ 0 ∧ r.file.isSome = true := ⟨hs, by rw [hf]; rfl⟩
  unfold ImageListTool.onUpload
  rw [if_pos hcond, hf]
  cases hu with
  | inl h0 => simp [ImageListTool.setImage, h0]
  | inr h1 => simp [ImageListTool.setImage, h1]

/-- Witness for C10 at a successful response carrying a file object with an
empty url. -/
theorem claim_c10_witness :
    ImageListTool.onUpload ⟨[], Ui.initState, 0⟩
        { success := 1, file := some { url := some "" } }
      = ⟨[], Ui.initState, 0⟩ :=
  claim_c10 ⟨[], Ui.initState, 0⟩ { success := 1, file := some { url := some "" } }
    { url := some "" } (by decide) rfl (Or.inr rfl)

end ImageList
